import Mathlib

/-!
Verification of the tar archive reader (`src/archive.rs`).

The byte source behind an `Archive` is modelled as an in-memory list of
bytes (`Nat`s, with `< 256` assumed where it matters) together with the
logical read position (`ArchiveInner { obj, pos }`).  Reads consume from
the list at the current position; an absolute seek resets the position.
All operations of `archive.rs` are translated function by function below.
-/

set_option maxRecDepth 16384

namespace TarRs

/-- The archive state: the underlying byte source (in memory) plus the
logical position `pos` (`ArchiveInner { obj: RefCell<..>, pos: Cell<u64> }`). -/
structure Cursor where
  data : List Nat
  pos : Nat
deriving DecidableEq

/-- One call to `Read::read for &ArchiveInner` asking for `n` bytes: an
in-memory source yields `min n (remaining)` bytes and advances `pos` by the
number of bytes actually read. -/
def readBytes (c : Cursor) (n : Nat) : List Nat × Cursor :=
  ((c.data.drop c.pos).take (min n (c.data.length - c.pos)),
   { c with pos := c.pos + min n (c.data.length - c.pos) })

/-- The loop of `read_all`: keep reading into the unfilled part of the
buffer (`want` bytes remain), failing if a read returns 0 bytes.  The
extra `fuel` argument (always instantiated with the initial `want`) bounds
the number of iterations so the recursion is structural; since every
non-final iteration reads at least one byte, the fuel-exhausted branch is
unreachable whenever `fuel ≥ want`. -/
def read_fill : Nat → Cursor → Nat → List Nat → Except String (List Nat) × Cursor
  | _, c, 0, acc => (.ok acc, c)
  | 0, c, _ + 1, _ => (.error "failed to read entire block", c)
  | fuel + 1, c, want + 1, acc =>
    match readBytes c (want + 1) with
    | (bs, c1) =>
      if bs.length = 0 then (.error "failed to read entire block", c1)
      else read_fill fuel c1 (want + 1 - bs.length) (acc ++ bs)

/-- `read_all(&mut &self.inner, &mut chunk)` for a 512-byte chunk. -/
def read_all (c : Cursor) : Except String (List Nat) × Cursor :=
  read_fill 512 c 512 []

/-- The loop of `_skip`: discard `amt` bytes by repeated reads into a
fixed 32 KiB (`4096 * 8`) scratch buffer, failing with EOF if a read
returns 0 bytes first.  As in `read_fill`, `fuel` (instantiated with the
initial `amt`) makes the recursion structural and is never exhausted. -/
def skipLoop : Nat → Cursor → Nat → Except String Unit × Cursor
  | _, c, 0 => (.ok (), c)
  | 0, c, _ + 1 => (.error "unexpected EOF during skip", c)
  | fuel + 1, c, amt + 1 =>
    match readBytes c (min (amt + 1) (4096 * 8)) with
    | (bs, c1) =>
      if bs.length = 0 then (.error "unexpected EOF during skip", c1)
      else skipLoop fuel c1 (amt + 1 - bs.length)

/-- `Archive::<Read>::_skip(amt)`. -/
def _skip (c : Cursor) (amt : Nat) : Except String Unit × Cursor :=
  skipLoop amt c amt

/-- `Archive::<ReadAndSeek>::_seek(pos)`: a no-op when the target equals
the current position, otherwise one absolute underlying seek (whose
outcome is given by `useek`) followed by the position update.  The
returned `Bool` records whether an underlying seek call was issued. -/
def _seek (useek : Nat → Except String Unit) (c : Cursor) (target : Nat) :
    Except String Cursor × Bool :=
  if c.pos = target then (.ok c, false)
  else
    match useek target with
    | .ok _ => (.ok { c with pos := target }, true)
    | .error e => (.error e, true)

/-- An in-memory source's seek never fails. -/
def listSeek : Nat → Except String Unit := fun _ => .ok ()

/-- ASCII octal digit, `'0'` to `'7'`. -/
def isOctalDigit (b : Nat) : Bool := 48 ≤ b && b ≤ 55

/-- Truncate a numeric field at its first NUL byte and trim ASCII spaces
from both ends. -/
def trimField (bs : List Nat) : List Nat :=
  (((bs.takeWhile (fun b => b ≠ 0)).dropWhile
      (fun b => b = 32)).reverse.dropWhile (fun b => b = 32)).reverse

/-- Modelled from the spec: the Header Codec's octal-to-integer
conversion (the field-level codec of `header.rs` is an external
collaborator, not part of the given source).  The field is truncated at
the first NUL byte, surrounding ASCII spaces are trimmed, and the rest
must be a non-empty string of ASCII octal digits; anything else is a
field-decode error. -/
def octalFrom (bs : List Nat) : Except String Nat :=
  if trimField bs = [] then .error "numeric field was not a number"
  else if (trimField bs).all isOctalDigit then
    .ok ((trimField bs).foldl (fun a b => 8 * a + (b - 48)) 0)
  else .error "numeric field was not a number"

/-- Modelled from the spec: `Header::size()` — the declared body size,
octal-decoded from the 12-byte field at offset 124 of the header. -/
def header_size (h : List Nat) : Except String Nat :=
  octalFrom ((h.drop 124).take 12)

/-- Modelled from the spec: `Header::cksum()` — the stored checksum,
octal-decoded from the 8-byte field at offset 148 of the header. -/
def header_cksum (h : List Nat) : Except String Nat :=
  octalFrom ((h.drop 148).take 8)

/-- The verification sum recomputed in `_next_entry`:
`chunk[..148]` plus `chunk[156..]` (bytes as unsigned) plus `32 * 8`
for the blanked 8-byte checksum field. -/
def chunkSum (chunk : List Nat) : Nat :=
  (chunk.take 148).foldl (fun a b => a + b) 0 +
  (chunk.drop 156).foldl (fun a b => a + b) 0 + 32 * 8

/-- `(size + 511) & !(512 - 1)` at `u64` width: the number of body bytes
(including padding) that follow the header.  `!(512 - 1)` on `u64` is
`2 ^ 64 - 512`; the `% 2 ^ 64` reflects the wrap-around of `size + 511`
(declared sizes are far below `2 ^ 64`, so it never actually wraps). -/
def roundBody (size : Nat) : Nat :=
  ((size + 511) % 2 ^ 64) &&& (2 ^ 64 - 512)

/-- The part of `EntryFields` that `archive.rs` fills in itself: the raw
header block and the decoded size (`pos` starts at 0; the data accessor
is modelled by the drivers below). -/
structure EntryFields where
  size : Nat
  header : List Nat
deriving DecidableEq

/-- `Archive::<Read>::_next_entry`.  Returns the yielded value (`none`
is the end sentinel), the cursor after the reads it performed, and the
final value of the `&mut offset` argument (which is updated in place
even on the paths that end in an error). -/
def _next_entry (c : Cursor) (offset : Nat) :
    Except String (Option EntryFields) × Cursor × Nat :=
  match read_all c with
  | (.error e, c1) => (.error e, c1, offset)
  | (.ok chunk, c1) =>
    if chunk.all (fun i => i = 0) then
      -- a block of 0s is never valid as a header (because of the
      -- checksum), so it must be the first of the two end blocks
      match read_all c1 with
      | (.error e, c2) => (.error e, c2, offset + 512)
      | (.ok chunk2, c2) =>
        if chunk2.all (fun i => i = 0) then
          (.ok none, c2, offset + 512 + 512)
        else
          (.error "found block of 0s not followed by a second block of 0s",
           c2, offset + 512 + 512)
    else
      match header_size chunk with
      | .error e => (.error e, c1, offset + 512)
      | .ok size =>
        match header_cksum chunk with
        | .error e => (.error e, c1, offset + 512)
        | .ok cksum =>
          if chunkSum chunk ≠ cksum then
            (.error "archive header checksum mismatch", c1, offset + 512)
          else
            (.ok (some { size := size, header := chunk }),
             c1, offset + 512 + roundBody size)

/-- The state of `EntriesFields` (the random-access iterator): the next
header offset and the `done` flag. -/
structure REntries where
  done : Bool
  offset : Nat
deriving DecidableEq

/-- The state of `EntriesMutFields` (the streaming iterator). -/
structure MEntries where
  done : Bool
  next : Nat
deriving DecidableEq

/-- `<EntriesFields as Iterator>::next`: seek to the saved offset, parse
the next header there.  Returns the yielded item (if any), the cursor
and the new iterator state.  The in-memory source's seek is
`listSeek` (it cannot fail, but the error arm of `try_iter!` is kept). -/
def rNext (c : Cursor) (st : REntries) :
    Option (Except String EntryFields) × Cursor × REntries :=
  if st.done then (none, c, st)
  else
    match _seek listSeek c st.offset with
    | (.error e, _) => (some (.error e), c, { st with done := true })
    | (.ok c1, _) =>
      match _next_entry c1 st.offset with
      | (.error e, c2, off1) =>
        (some (.error e), c2, { done := true, offset := off1 })
      | (.ok none, c2, off1) => (none, c2, { done := true, offset := off1 })
      | (.ok (some f), c2, off1) =>
        (some (.ok f), c2, { st with offset := off1 })

/-- `<EntriesMutFields as Iterator>::next`: discard the bytes between
the current position and the next header (`delta = next - pos`), then
parse the header from the live stream. -/
def mNext (c : Cursor) (st : MEntries) :
    Option (Except String EntryFields) × Cursor × MEntries :=
  if st.done then (none, c, st)
  else
    match _skip c (st.next - c.pos) with
    | (.error e, c1) => (some (.error e), c1, { st with done := true })
    | (.ok _, c1) =>
      match _next_entry c1 st.next with
      | (.error e, c2, nx1) =>
        (some (.error e), c2, { done := true, next := nx1 })
      | (.ok none, c2, nx1) => (none, c2, { done := true, next := nx1 })
      | (.ok (some f), c2, nx1) =>
        (some (.ok f), c2, { st with next := nx1 })

/-- `Archive::<Read>::_entries_mut`: construction of the streaming
iterator fails unless the archive is at position 0. -/
def _entries_mut (c : Cursor) : Except String MEntries :=
  if c.pos ≠ 0 then
    .error "cannot call entries_mut unless archive is at position 0"
  else .ok { done := false, next := 0 }

/-- Drive the random-access iterator to exhaustion, collecting the
yielded entries and the terminating error, if any.  `fuel` bounds the
number of steps (every theorem below supplies enough of it). -/
def runR : Nat → Cursor → REntries → List EntryFields × Option String
  | 0, _, _ => ([], none)
  | fuel + 1, c, st =>
    match rNext c st with
    | (none, _, _) => ([], none)
    | (some (.error e), _, _) => ([], some e)
    | (some (.ok f), c1, st1) =>
      ((runR fuel c1 st1).1.cons f, (runR fuel c1 st1).2)

/-- Modelled from the spec: a consumer reading `req` bytes of the
current entry's body over the streaming data accessor.  The accessor
performs a plain sequential `read`; the `Entry` wrapper (`entry.rs`, an
external collaborator) caps reads at the declared size, hence
`min req size`. -/
def consumeBody (req : Nat) (c : Cursor) (size : Nat) : Cursor :=
  (readBytes c (min req size)).2

/-- Drive the streaming iterator to exhaustion; after each yielded entry
the consumer reads `req f` bytes of its body before advancing. -/
def runM (req : EntryFields → Nat) :
    Nat → Cursor → MEntries → List EntryFields × Option String
  | 0, _, _ => ([], none)
  | fuel + 1, c, st =>
    match mNext c st with
    | (none, _, _) => ([], none)
    | (some (.error e), _, _) => ([], some e)
    | (some (.ok f), c1, st1) =>
      ((runM req fuel (consumeBody (req f) c1 f.size) st1).1.cons f,
       (runM req fuel (consumeBody (req f) c1 f.size) st1).2)

/-- One entry of a well-formed archive on the wire: its 512-byte header
followed by its padded body. -/
structure RawEntry where
  header : List Nat
  body : List Nat
deriving DecidableEq

/-- The declared size of an entry (0 when the size field is invalid;
`validEntry` rules the invalid case out). -/
def entrySize (e : RawEntry) : Nat :=
  match header_size e.header with
  | .ok s => s
  | .error _ => 0

/-- The `EntryFields` that a traversal yields for a raw entry. -/
def fieldsOf (e : RawEntry) : EntryFields :=
  { size := entrySize e, header := e.header }

/-- A well-formed archive entry: a 512-byte, not-all-zero header whose
size and checksum fields decode, whose stored checksum matches the
recomputed sum, and whose padded body has exactly the length the reader
will skip over. -/
def validEntry (e : RawEntry) : Bool :=
  e.header.length = 512 &&
  !(e.header.all (fun i => i = 0)) &&
  (match header_size e.header, header_cksum e.header with
   | .ok s, .ok k =>
     k = chunkSum e.header && e.body.length = roundBody s
   | _, _ => false)

/-- The wire bytes of a well-formed archive (§6 of the spec): each entry
is its header followed by its padded body, and the archive ends with two
all-zero 512-byte records. -/
def archBytes : List RawEntry → List Nat
  | [] => List.replicate 1024 0
  | e :: rest => e.header ++ (e.body ++ archBytes rest)

/-- `std::path::Component`, as classified by `_unpack`'s loop (the
`Prefix` variant is spelled `drive` here). -/
inductive PComp where
  | drive
  | rootDir
  | curDir
  | parentDir
  | normal (s : String)
deriving DecidableEq

/-- A filesystem action performed by the unpacker; paths are component
lists. -/
inductive FsAction where
  | mkdirAll (path : List String)
  | writeFile (path : List String)
deriving DecidableEq

/-- The path a filesystem action touches. -/
def FsAction.path : FsAction → List String
  | .mkdirAll p => p
  | .writeFile p => p

/-- The component loop of `_unpack`: prefixes, root markers and `.` are
skipped, a `..` component aborts the whole entry (`continue 'outer`,
modelled as `none`), and normal components are appended to the
destination being built. -/
def buildDst : List PComp → List String → Option (List String)
  | [], acc => some acc
  | .drive :: rest, acc => buildDst rest acc
  | .rootDir :: rest, acc => buildDst rest acc
  | .curDir :: rest, acc => buildDst rest acc
  | .parentDir :: _, _ => none
  | .normal s :: rest, acc => buildDst rest (acc ++ [s])

/-- An entry as seen by the unpacker.  Modelled from the spec: path
decoding (`Header::path()` and `std::path` components) is external to
the given source, so entries carry their already-decoded component
list. -/
structure UEntry where
  pathComps : List PComp
deriving DecidableEq

/-- The filesystem actions of `Archive::<Read>::_unpack` over the
destination root `dst`: per entry, build the destination path; skip the
entry when a `..` component occurs or when nothing was appended
(`*dst == *file_dst`); otherwise create the parent directories and write
the file. -/
def _unpack (dst : List String) : List UEntry → List FsAction
  | [] => []
  | e :: rest =>
    match buildDst e.pathComps [] with
    | none => _unpack dst rest
    | some [] => _unpack dst rest
    | some acc =>
      .mkdirAll (dst ++ acc).dropLast ::
      .writeFile (dst ++ acc) :: _unpack dst rest

/-- A concrete 512-byte header for tests: the 12-byte size field at
offset 124 holds `sizeDigits` plus a NUL terminator, the 8-byte checksum
field at offset 148 holds `cksumDigits` padded with NULs, and every
other byte is zero. -/
def mkHeader (sizeDigits cksumDigits : List Nat) : List Nat :=
  List.replicate 124 0 ++ (sizeDigits ++ [0]) ++ List.replicate 12 0 ++
  (cksumDigits ++ List.replicate (8 - cksumDigits.length) 0) ++ List.replicate 356 0

/-- Valid header declaring size 0 (checksum 784 = octal 1420). -/
def H0 : List Nat := mkHeader (List.replicate 11 48) [49, 52, 50, 48]

/-- Valid header declaring size 1. -/
def H1 : List Nat := mkHeader (List.replicate 10 48 ++ [49]) [49, 52, 50, 49]

/-- Valid header declaring size 511 (octal 777). -/
def H511 : List Nat := mkHeader (List.replicate 8 48 ++ [55, 55, 55]) [49, 52, 52, 53]

/-- Valid header declaring size 512 (octal 1000). -/
def H512 : List Nat := mkHeader (List.replicate 7 48 ++ [49, 48, 48, 48]) [49, 52, 50, 49]

/-- Valid header declaring size 513 (octal 1001). -/
def H513 : List Nat := mkHeader (List.replicate 7 48 ++ [49, 48, 48, 49]) [49, 52, 50, 50]

/-! ### Basic helpers -/

theorem foldl_add_eq (l : List Nat) (a : Nat) :
    l.foldl (fun x y => x + y) a = a + l.sum := by
  induction l generalizing a with
  | nil => simp
  | cons b l ih => simp [ih, List.sum_cons]; omega

/-- The recomputed sum is the two partial byte sums plus 256. -/
theorem chunkSum_eq (l : List Nat) :
    chunkSum l = (l.take 148).sum + (l.drop 156).sum + 256 := by
  simp [chunkSum, foldl_add_eq]

theorem sum_set_add (l : List Nat) (i v : Nat) (h : i < l.length) :
    (l.set i v).sum + l[i] = l.sum + v := by
  induction l generalizing i with
  | nil => simp at h
  | cons b l ih =>
    cases i with
    | zero => simp [List.sum_cons]; omega
    | succ j =>
      simp only [List.set_cons_succ, List.sum_cons, List.getElem_cons_succ]
      have := ih j (by simpa using Nat.lt_of_succ_lt_succ h)
      omega

theorem cursor_eta (c : Cursor) : { c with pos := c.pos } = c := rfl

/-! ### The read loop -/

theorem read_fill_step (fuel : Nat) (c : Cursor) (want : Nat) (acc : List Nat)
    (hf : want ≤ fuel) (hav : c.pos + want ≤ c.data.length) :
    read_fill fuel c want acc =
      (.ok (acc ++ (c.data.drop c.pos).take want), { c with pos := c.pos + want }) := by
  cases want with
  | zero => cases fuel <;> simp [read_fill, cursor_eta]
  | succ w =>
    cases fuel with
    | zero => omega
    | succ f =>
      have hmin : min (w + 1) (c.data.length - c.pos) = w + 1 := by omega
      have hlen : ((c.data.drop c.pos).take (w + 1)).length = w + 1 := by
        simp [List.length_take]; omega
      simp only [read_fill, readBytes, hmin, hlen]
      rw [if_neg (by omega), Nat.sub_self]
      simp [read_fill]

theorem read_all_ok (c : Cursor) (hav : c.pos + 512 ≤ c.data.length) :
    read_all c =
      (.ok ((c.data.drop c.pos).take 512), { c with pos := c.pos + 512 }) := by
  simpa using read_fill_step 512 c 512 [] (by omega) hav

/-! ### The skip loop -/

theorem skipLoop_ok (fuel : Nat) (c : Cursor) (amt : Nat)
    (hf : amt ≤ fuel) (hav : c.pos + amt ≤ c.data.length) :
    skipLoop fuel c amt = (.ok (), { c with pos := c.pos + amt }) := by
  induction fuel generalizing c amt with
  | zero =>
    have : amt = 0 := by omega
    subst this; simp [skipLoop, cursor_eta]
  | succ f ih =>
    cases amt with
    | zero => simp [skipLoop, cursor_eta]
    | succ a =>
      have hmin : min (min (a + 1) (4096 * 8)) (c.data.length - c.pos)
          = min (a + 1) (4096 * 8) := by omega
      have hlen : ((c.data.drop c.pos).take (min (a + 1) (4096 * 8))).length
          = min (a + 1) (4096 * 8) := by
        simp [List.length_take]; omega
      simp only [skipLoop, readBytes, hmin, hlen]
      rw [if_neg (by omega)]
      rw [ih _ _ (by omega) (by simp; omega)]
      simp; omega

theorem _skip_ok (c : Cursor) (amt : Nat) (hav : c.pos + amt ≤ c.data.length) :
    _skip c amt = (.ok (), { c with pos := c.pos + amt }) :=
  skipLoop_ok amt c amt (Nat.le_refl _) hav

theorem skipLoop_eof (fuel : Nat) (c : Cursor) (amt : Nat)
    (hf : amt ≤ fuel) (h0 : 0 < amt) (hav : c.data.length < c.pos + amt) :
    (skipLoop fuel c amt).1 = .error "unexpected EOF during skip" := by
  induction fuel generalizing c amt with
  | zero => omega
  | succ f ih =>
    cases amt with
    | zero => omega
    | succ a =>
      by_cases hz : c.data.length ≤ c.pos
      · have hz0 : c.data.length - c.pos = 0 := by omega
        simp [skipLoop, readBytes, hz0]
      · have hlen : ((c.data.drop c.pos).take
            (min (min (a + 1) (4096 * 8)) (c.data.length - c.pos))).length
            = min (min (a + 1) (4096 * 8)) (c.data.length - c.pos) := by
          simp [List.length_take]
        simp only [skipLoop, readBytes, hlen]
        rw [if_neg (by omega)]
        have h3 : c.data.length <
            (c.pos + min (min (a + 1) (4096 * 8)) (c.data.length - c.pos)) +
            (a + 1 - min (min (a + 1) (4096 * 8)) (c.data.length - c.pos)) := by omega
        exact ih _ _ (by omega) (by omega) (by simpa using h3)

theorem _skip_eof (c : Cursor) (amt : Nat) (h0 : 0 < amt)
    (hav : c.data.length < c.pos + amt) :
    (_skip c amt).1 = .error "unexpected EOF during skip" :=
  skipLoop_eof amt c amt (Nat.le_refl _) h0 hav

/-! ### Seeking -/

theorem seek_list (c : Cursor) (target : Nat) :
    _seek listSeek c target = (.ok { c with pos := target }, decide (c.pos ≠ target)) := by
  by_cases h : c.pos = target
  · subst h; simp [_seek, cursor_eta]
  · simp [_seek, listSeek, h]

/-! ### Bounds on octal fields and the body rounding mask -/

theorem foldl_octal_lt (l : List Nat) (a : Nat)
    (h : ∀ b ∈ l, isOctalDigit b = true) :
    l.foldl (fun x b => 8 * x + (b - 48)) a < (a + 1) * 8 ^ l.length := by
  induction l generalizing a with
  | nil => simp
  | cons b l ih =>
    have hb : b - 48 < 8 := by
      have := h b (List.mem_cons_self b l)
      simp [isOctalDigit] at this
      omega
    have step := ih (8 * a + (b - 48)) (fun d hd => h d (List.mem_cons_of_mem b hd))
    calc (b :: l).foldl (fun x b => 8 * x + (b - 48)) a
        = l.foldl (fun x b => 8 * x + (b - 48)) (8 * a + (b - 48)) := by simp
      _ < (8 * a + (b - 48) + 1) * 8 ^ l.length := step
      _ ≤ (a + 1) * 8 ^ (b :: l).length := by
          simp [List.length_cons, pow_succ]
          calc (8 * a + (b - 48) + 1) * 8 ^ l.length
              ≤ ((a + 1) * 8) * 8 ^ l.length := by
                apply Nat.mul_le_mul_right
                omega
            _ = (a + 1) * (8 ^ l.length * 8) := by ring

theorem trimField_length_le (bs : List Nat) : (trimField bs).length ≤ bs.length := by
  unfold trimField
  calc ((((bs.takeWhile (fun b => b ≠ 0)).dropWhile
            (fun b => b = 32)).reverse.dropWhile (fun b => b = 32)).reverse).length
      = (((bs.takeWhile (fun b => b ≠ 0)).dropWhile
            (fun b => b = 32)).reverse.dropWhile (fun b => b = 32)).length := by simp
    _ ≤ (((bs.takeWhile (fun b => b ≠ 0)).dropWhile (fun b => b = 32)).reverse).length :=
        (List.dropWhile_sublist _).length_le
    _ = ((bs.takeWhile (fun b => b ≠ 0)).dropWhile (fun b => b = 32)).length := by simp
    _ ≤ ((bs.takeWhile (fun b => b ≠ 0))).length := (List.dropWhile_sublist _).length_le
    _ ≤ bs.length := (List.takeWhile_sublist _).length_le

theorem mem_of_mem_trimField (bs : List Nat) (d : Nat) (h : d ∈ trimField bs) :
    d ∈ bs := by
  unfold trimField at h
  rw [List.mem_reverse] at h
  have h2 := (List.dropWhile_sublist (fun b => decide (b = 32))).mem h
  rw [List.mem_reverse] at h2
  have h3 := (List.dropWhile_sublist (fun b => decide (b = 32))).mem h2
  exact (List.takeWhile_sublist (fun b => decide (b ≠ 0))).mem h3

theorem octalFrom_lt (bs : List Nat) (v : Nat) (h : octalFrom bs = .ok v) :
    v < 8 ^ bs.length := by
  unfold octalFrom at h
  split at h
  · exact absurd h (by simp)
  · split at h
    · rename_i hall
      have hv : (trimField bs).foldl (fun a b => 8 * a + (b - 48)) 0 = v := by
        simpa using h
      have := foldl_octal_lt (trimField bs) 0 (List.all_eq_true.1 hall)
      rw [hv] at this
      calc v < (0 + 1) * 8 ^ (trimField bs).length := this
        _ = 8 ^ (trimField bs).length := by ring
        _ ≤ 8 ^ bs.length := Nat.pow_le_pow_right (by omega) (trimField_length_le bs)
    · exact absurd h (by simp)

theorem header_size_lt (h : List Nat) (s : Nat) (hs : header_size h = .ok s) :
    s < 8 ^ 12 := by
  have hb := octalFrom_lt _ _ hs
  have hlen : ((h.drop 124).take 12).length ≤ 12 := by
    simp [List.length_take]
  calc s < 8 ^ ((h.drop 124).take 12).length := hb
    _ ≤ 8 ^ 12 := Nat.pow_le_pow_right (by omega) hlen

/-- Every element of a successfully decoded octal field is an ASCII octal
digit, so the field contains a byte that is at least `'0'`. -/
theorem octalFrom_has_digit (bs : List Nat) (v : Nat) (h : octalFrom bs = .ok v) :
    ∃ d ∈ bs, 48 ≤ d := by
  unfold octalFrom at h
  split at h
  · exact absurd h (by simp)
  · rename_i hne
    split at h
    · rename_i hall
      obtain ⟨d, hd⟩ := List.exists_mem_of_ne_nil _ hne
      refine ⟨d, mem_of_mem_trimField bs d hd, ?_⟩
      have := (List.all_eq_true.1 hall) d hd
      simp [isOctalDigit] at this
      omega
    · exact absurd h (by simp)

/-- For `n < 2 ^ 64`, masking with `!(512 - 1)` rounds down to a multiple
of 512. -/
theorem land_mask (n : Nat) (h : n < 2 ^ 64) :
    n &&& (2 ^ 64 - 512) = n / 512 * 512 := by
  apply Nat.eq_of_testBit_eq
  intro i
  have hm : (2 : Nat) ^ 64 - 512 = 2 ^ 9 * (2 ^ 55 - 1) := by norm_num
  have hr : n / 512 * 512 = 2 ^ 9 * (n / 2 ^ 9) := by
    have h512 : (512 : Nat) = 2 ^ 9 := by norm_num
    rw [h512, Nat.mul_comm]
  rw [Nat.testBit_and, hm, Nat.testBit_mul_pow_two, Nat.testBit_two_pow_sub_one,
    hr, Nat.testBit_mul_pow_two, ← Nat.shiftRight_eq_div_pow, Nat.testBit_shiftRight]
  by_cases h9 : 9 ≤ i
  · rw [show 9 + (i - 9) = i by omega]
    by_cases h64 : i < 64
    · have h55 : i - 9 < 55 := by omega
      simp [ge_iff_le, h9, h55]
    · have hfalse : n.testBit i = false := by
        apply Nat.testBit_lt_two_pow
        calc n < 2 ^ 64 := h
          _ ≤ 2 ^ i := Nat.pow_le_pow_right (by omega) (by omega)
      simp [hfalse]
  · simp [ge_iff_le, h9]

theorem roundBody_eq (s : Nat) (hs : s < 8 ^ 12) :
    roundBody s = (s + 511) / 512 * 512 := by
  have h1 : (s + 511) % 2 ^ 64 = s + 511 := by
    apply Nat.mod_eq_of_lt
    calc s + 511 < 8 ^ 12 + 511 := by omega
      _ < 2 ^ 64 := by norm_num
  rw [roundBody, h1]
  exact land_mask _ (by calc s + 511 < 8 ^ 12 + 511 := by omega
    _ < 2 ^ 64 := by norm_num)

theorem roundBody_ge (s : Nat) (hs : s < 8 ^ 12) : s ≤ roundBody s := by
  rw [roundBody_eq s hs]
  have := Nat.div_add_mod (s + 511) 512
  have hm : (s + 511) % 512 < 512 := Nat.mod_lt _ (by omega)
  omega

/-! ### Destructuring a valid entry -/

theorem valid_parts (e : RawEntry) (h : validEntry e = true) :
    e.header.length = 512 ∧ e.header.all (fun i => i = 0) = false ∧
    header_size e.header = .ok (entrySize e) ∧
    header_cksum e.header = .ok (chunkSum e.header) ∧
    e.body.length = roundBody (entrySize e) := by
  unfold validEntry at h
  simp only [Bool.and_eq_true, decide_eq_true_eq, Bool.not_eq_true'] at h
  obtain ⟨⟨h1, h2⟩, h3⟩ := h
  refine ⟨h1, h2, ?_⟩
  cases hs : header_size e.header with
  | error e' => rw [hs] at h3; simp at h3
  | ok s =>
    cases hk : header_cksum e.header with
    | error e' => rw [hs, hk] at h3; simp at h3
    | ok k =>
      rw [hs, hk] at h3
      simp only [Bool.and_eq_true, decide_eq_true_eq] at h3
      have hes : entrySize e = s := by simp [entrySize, hs]
      rw [hes]
      exact ⟨rfl, by rw [h3.1], h3.2⟩

/-! ### Behaviour of `_next_entry` -/

theorem next_entry_entry (c : Cursor) (off s : Nat) (hdr tail : List Nat)
    (hd : c.data.drop c.pos = hdr ++ tail) (hlen : hdr.length = 512)
    (hnz : hdr.all (fun i => i = 0) = false)
    (hs : header_size hdr = .ok s)
    (hk : header_cksum hdr = .ok (chunkSum hdr)) :
    _next_entry c off = (.ok (some { size := s, header := hdr }),
      { c with pos := c.pos + 512 }, off + 512 + roundBody s) := by
  have hdl : (c.data.drop c.pos).length = c.data.length - c.pos := by simp
  rw [hd] at hdl
  have hav : c.pos + 512 ≤ c.data.length := by
    simp [hlen] at hdl; omega
  have hchunk : (c.data.drop c.pos).take 512 = hdr := by
    rw [hd]; exact List.take_left' hlen
  simp [_next_entry, read_all_ok c hav, hchunk, hnz, hs, hk]

/-- The all-zero 512-byte block passes the zero test. -/
theorem allZero_replicate :
    (List.replicate 512 (0 : Nat)).all (fun i => i = 0) = true := by rfl

theorem next_entry_end (c : Cursor) (off : Nat) (tail : List Nat)
    (hd : c.data.drop c.pos = List.replicate 1024 0 ++ tail) :
    _next_entry c off =
      (.ok none, { c with pos := c.pos + 512 + 512 }, off + 512 + 512) := by
  have hsplit : (List.replicate 1024 (0 : Nat)) =
      List.replicate 512 0 ++ List.replicate 512 0 := by
    rw [List.append_replicate_replicate]
  rw [hsplit, List.append_assoc] at hd
  have hdl : (c.data.drop c.pos).length = c.data.length - c.pos := by
    rw [List.length_drop]
  rw [hd] at hdl
  simp only [List.length_append, List.length_replicate] at hdl
  have hav : c.pos + 512 ≤ c.data.length := by omega
  have hchunk : (c.data.drop c.pos).take 512 = List.replicate 512 0 := by
    rw [hd]; exact List.take_left' (List.length_replicate 512 0)
  have hd2 : c.data.drop (c.pos + 512) = List.replicate 512 0 ++ tail := by
    rw [← List.drop_drop, hd,
      List.drop_left' (List.length_replicate 512 0)]
  have hav2 : c.pos + 512 + 512 ≤ c.data.length := by omega
  have hchunk2 : (c.data.drop (c.pos + 512)).take 512 = List.replicate 512 0 := by
    rw [hd2]; exact List.take_left' (List.length_replicate 512 0)
  have h2 := read_all_ok { c with pos := c.pos + 512 } hav2
  simp only [_next_entry, read_all_ok c hav, hchunk, h2, hchunk2, allZero_replicate,
    if_true]

theorem next_entry_corrupt (c : Cursor) (off : Nat) (tail : List Nat)
    (hd : c.data.drop c.pos = List.replicate 512 0 ++ tail)
    (hlen2 : 512 ≤ tail.length)
    (hnz2 : (tail.take 512).all (fun i => i = 0) = false) :
    _next_entry c off =
      (.error "found block of 0s not followed by a second block of 0s",
       { c with pos := c.pos + 512 + 512 }, off + 512 + 512) := by
  have hdl : (c.data.drop c.pos).length = c.data.length - c.pos := by
    rw [List.length_drop]
  rw [hd] at hdl
  simp only [List.length_append, List.length_replicate] at hdl
  have hav : c.pos + 512 ≤ c.data.length := by omega
  have hchunk : (c.data.drop c.pos).take 512 = List.replicate 512 0 := by
    rw [hd]; exact List.take_left' (List.length_replicate 512 0)
  have hd2 : c.data.drop (c.pos + 512) = tail := by
    rw [← List.drop_drop, hd,
      List.drop_left' (List.length_replicate 512 0)]
  have hav2 : c.pos + 512 + 512 ≤ c.data.length := by omega
  have h2 := read_all_ok { c with pos := c.pos + 512 } hav2
  simp only [_next_entry, read_all_ok c hav, hchunk, h2, hd2, hnz2, allZero_replicate,
    if_true, Bool.false_eq_true, if_false]

theorem next_entry_zero_no_entry (c : Cursor) (off : Nat) (tail : List Nat)
    (f : EntryFields)
    (hd : c.data.drop c.pos = List.replicate 512 0 ++ tail) :
    (_next_entry c off).1 ≠ .ok (some f) := by
  have hdl : (c.data.drop c.pos).length = c.data.length - c.pos := by
    rw [List.length_drop]
  rw [hd] at hdl
  simp only [List.length_append, List.length_replicate] at hdl
  have hav : c.pos + 512 ≤ c.data.length := by omega
  have hchunk : (c.data.drop c.pos).take 512 = List.replicate 512 0 := by
    rw [hd]; exact List.take_left' (List.length_replicate 512 0)
  simp only [_next_entry, read_all_ok c hav, hchunk, allZero_replicate, if_true]
  rcases hr : read_all { c with pos := c.pos + 512 } with ⟨r2, c2⟩
  cases r2 with
  | error e => simp
  | ok chunk2 =>
    by_cases hz : chunk2.all (fun i => i = 0)
    · simp [hz]
    · simp [hz]

/-! ### One step of each iterator, on an in-memory source -/

theorem rNext_step (c : Cursor) (st : REntries) (hdone : st.done = false) :
    rNext c st =
      match _next_entry { c with pos := st.offset } st.offset with
      | (.error e, c2, off1) => (some (.error e), c2, { done := true, offset := off1 })
      | (.ok none, c2, off1) => (none, c2, { done := true, offset := off1 })
      | (.ok (some f), c2, off1) => (some (.ok f), c2, { st with offset := off1 }) := by
  simp only [rNext, hdone, Bool.false_eq_true, if_false, seek_list]

theorem mNext_step (c : Cursor) (st : MEntries) (hdone : st.done = false)
    (hle : c.pos ≤ st.next) (hav : st.next ≤ c.data.length) :
    mNext c st =
      match _next_entry { c with pos := st.next } st.next with
      | (.error e, c2, nx1) => (some (.error e), c2, { done := true, next := nx1 })
      | (.ok none, c2, nx1) => (none, c2, { done := true, next := nx1 })
      | (.ok (some f), c2, nx1) => (some (.ok f), c2, { st with next := nx1 }) := by
  simp only [mNext, hdone, Bool.false_eq_true, if_false]
  rw [_skip_ok c (st.next - c.pos) (by omega)]
  rw [show c.pos + (st.next - c.pos) = st.next by omega]

/-- Unfolding of one streaming step with only the `done` flag known. -/
theorem mNext_step' (c : Cursor) (st : MEntries) (hdone : st.done = false) :
    mNext c st =
      match _skip c (st.next - c.pos) with
      | (.error e, c1) => (some (.error e), c1, { st with done := true })
      | (.ok _, c1) =>
        match _next_entry c1 st.next with
        | (.error e, c2, nx1) => (some (.error e), c2, { done := true, next := nx1 })
        | (.ok none, c2, nx1) => (none, c2, { done := true, next := nx1 })
        | (.ok (some f), c2, nx1) => (some (.ok f), c2, { st with next := nx1 }) := by
  simp only [mNext, hdone, Bool.false_eq_true, if_false]

/-! ### Full traversals of a well-formed archive -/

theorem runR_spec (es : List RawEntry) :
    ∀ (pre : List Nat) (p fuel : Nat),
    (∀ e ∈ es, validEntry e = true) → es.length < fuel →
    runR fuel ⟨pre ++ archBytes es, p⟩ ⟨false, pre.length⟩ =
      (es.map fieldsOf, none) := by
  induction es with
  | nil =>
    intro pre p fuel _ hf
    cases fuel with
    | zero => omega
    | succ f =>
      have hdrop : (pre ++ archBytes []).drop pre.length
          = List.replicate 1024 0 ++ ([] : List Nat) := by
        rw [List.drop_left, List.append_nil]; rfl
      have hne : _next_entry ⟨pre ++ archBytes [], pre.length⟩ pre.length
          = (.ok none, ⟨pre ++ archBytes [], pre.length + 512 + 512⟩,
             pre.length + 512 + 512) := by
        simpa using next_entry_end ⟨pre ++ archBytes [], pre.length⟩ pre.length [] hdrop
      have hstep := rNext_step ⟨pre ++ archBytes [], p⟩ ⟨false, pre.length⟩ rfl
      simp only [runR, hstep, hne, List.map_nil]
  | cons e rest ih =>
    intro pre p fuel hv hf
    cases fuel with
    | zero => omega
    | succ f =>
      have hf' : rest.length < f := by
        simp only [List.length_cons] at hf; omega
      obtain ⟨hlen, hnz, hs, hk, hb⟩ := valid_parts e (hv e (List.mem_cons_self e rest))
      have hdrop : (pre ++ archBytes (e :: rest)).drop pre.length
          = e.header ++ (e.body ++ archBytes rest) := by
        rw [List.drop_left]; rfl
      have hne : _next_entry ⟨pre ++ archBytes (e :: rest), pre.length⟩ pre.length
          = (.ok (some { size := entrySize e, header := e.header }),
             ⟨pre ++ archBytes (e :: rest), pre.length + 512⟩,
             pre.length + 512 + roundBody (entrySize e)) := by
        simpa using next_entry_entry ⟨pre ++ archBytes (e :: rest), pre.length⟩
          pre.length (entrySize e) e.header (e.body ++ archBytes rest) hdrop hlen hnz hs hk
      have hstep := rNext_step ⟨pre ++ archBytes (e :: rest), p⟩ ⟨false, pre.length⟩ rfl
      have hdata : pre ++ archBytes (e :: rest)
          = (pre ++ (e.header ++ e.body)) ++ archBytes rest := by
        show pre ++ (e.header ++ (e.body ++ archBytes rest)) = _
        simp [List.append_assoc]
      have hplen : (pre ++ (e.header ++ e.body)).length
          = pre.length + 512 + roundBody (entrySize e) := by
        simp [List.length_append, hlen, hb]; omega
      have harg := ih (pre ++ (e.header ++ e.body)) (pre.length + 512) f
        (fun x hx => hv x (List.mem_cons_of_mem e hx)) hf'
      rw [hplen, ← hdata] at harg
      simp only [runR, hstep, hne, harg, List.map_cons]
      rfl

theorem runM_spec (req : EntryFields → Nat) (es : List RawEntry) :
    ∀ (pre : List Nat) (p fuel : Nat),
    (∀ e ∈ es, validEntry e = true) → p ≤ pre.length → es.length < fuel →
    runM req fuel ⟨pre ++ archBytes es, p⟩ ⟨false, pre.length⟩ =
      (es.map fieldsOf, none) := by
  induction es with
  | nil =>
    intro pre p fuel _ hp hf
    cases fuel with
    | zero => omega
    | succ f =>
      have hlena : (archBytes []).length = 1024 := by
        rw [show archBytes [] = List.replicate 1024 0 from rfl, List.length_replicate]
      have hav : pre.length ≤ (pre ++ archBytes []).length := by
        simp only [List.length_append]; omega
      have hdrop : (pre ++ archBytes []).drop pre.length
          = List.replicate 1024 0 ++ ([] : List Nat) := by
        rw [List.drop_left, List.append_nil]; rfl
      have hne : _next_entry ⟨pre ++ archBytes [], pre.length⟩ pre.length
          = (.ok none, ⟨pre ++ archBytes [], pre.length + 512 + 512⟩,
             pre.length + 512 + 512) := by
        simpa using next_entry_end ⟨pre ++ archBytes [], pre.length⟩ pre.length [] hdrop
      have hstep := mNext_step ⟨pre ++ archBytes [], p⟩ ⟨false, pre.length⟩ rfl hp hav
      simp only [runM, hstep, hne, List.map_nil]
  | cons e rest ih =>
    intro pre p fuel hv hp hf
    cases fuel with
    | zero => omega
    | succ f =>
      have hf' : rest.length < f := by
        simp only [List.length_cons] at hf; omega
      obtain ⟨hlen, hnz, hs, hk, hb⟩ := valid_parts e (hv e (List.mem_cons_self e rest))
      have hav : pre.length ≤ (pre ++ archBytes (e :: rest)).length := by
        simp only [List.length_append]; omega
      have hdrop : (pre ++ archBytes (e :: rest)).drop pre.length
          = e.header ++ (e.body ++ archBytes rest) := by
        rw [List.drop_left]; rfl
      have hne : _next_entry ⟨pre ++ archBytes (e :: rest), pre.length⟩ pre.length
          = (.ok (some { size := entrySize e, header := e.header }),
             ⟨pre ++ archBytes (e :: rest), pre.length + 512⟩,
             pre.length + 512 + roundBody (entrySize e)) := by
        simpa using next_entry_entry ⟨pre ++ archBytes (e :: rest), pre.length⟩
          pre.length (entrySize e) e.header (e.body ++ archBytes rest) hdrop hlen hnz hs hk
      have hstep := mNext_step ⟨pre ++ archBytes (e :: rest), p⟩ ⟨false, pre.length⟩ rfl hp hav
      have hsz := header_size_lt e.header (entrySize e) hs
      have hge := roundBody_ge (entrySize e) hsz
      have hcons : consumeBody (req { size := entrySize e, header := e.header })
          ⟨pre ++ archBytes (e :: rest), pre.length + 512⟩ (entrySize e)
          = ⟨pre ++ archBytes (e :: rest),
             pre.length + 512 + min (min (req { size := entrySize e, header := e.header })
               (entrySize e)) ((pre ++ archBytes (e :: rest)).length - (pre.length + 512))⟩ := by
        simp [consumeBody, readBytes]
      have hdata : pre ++ archBytes (e :: rest)
          = (pre ++ (e.header ++ e.body)) ++ archBytes rest := by
        show pre ++ (e.header ++ (e.body ++ archBytes rest)) = _
        simp [List.append_assoc]
      have hplen : (pre ++ (e.header ++ e.body)).length
          = pre.length + 512 + roundBody (entrySize e) := by
        simp [List.length_append, hlen, hb]; omega
      have hq : min (min (req { size := entrySize e, header := e.header })
            (entrySize e)) ((pre ++ archBytes (e :: rest)).length - (pre.length + 512))
          ≤ roundBody (entrySize e) := by omega
      have harg := ih (pre ++ (e.header ++ e.body))
        (pre.length + 512 + min (min (req { size := entrySize e, header := e.header })
          (entrySize e)) ((pre ++ archBytes (e :: rest)).length - (pre.length + 512)))
        f (fun x hx => hv x (List.mem_cons_of_mem e hx)) (by omega) hf'
      rw [hplen, ← hdata] at harg
      simp only [runM, hstep, hne, hcons, harg, List.map_cons]
      rfl

/-! ### The unpacker -/

theorem buildDst_parent (l : List PComp) (acc : List String)
    (h : PComp.parentDir ∈ l) : buildDst l acc = none := by
  induction l generalizing acc with
  | nil => simp at h
  | cons cmp rest ih =>
    cases cmp with
    | drive => exact ih acc (by simpa using h)
    | rootDir => exact ih acc (by simpa using h)
    | curDir => exact ih acc (by simpa using h)
    | parentDir => rfl
    | normal s =>
      have : PComp.parentDir ∈ rest := by simpa using h
      exact ih (acc ++ [s]) this

theorem unpack_in_root (dst : List String) (es : List UEntry) (a : FsAction)
    (ha : a ∈ _unpack dst es) : a.path.take dst.length = dst := by
  induction es with
  | nil => simp [_unpack] at ha
  | cons e rest ih =>
    unfold _unpack at ha
    rcases hbd : buildDst e.pathComps [] with _ | acc
    · rw [hbd] at ha; exact ih ha
    · rw [hbd] at ha
      cases acc with
      | nil => exact ih ha
      | cons s acc1 =>
        rcases List.mem_cons.1 ha with h1 | h2
        · subst h1
          show ((dst ++ s :: acc1).dropLast).take dst.length = dst
          rw [List.dropLast_append_cons]
          exact List.take_left dst _
        · rcases List.mem_cons.1 h2 with h3 | h4
          · subst h3
            exact List.take_left dst _
          · exact ih h4

/-! ### The claims -/

/-- C1: an entry whose decoded path contains a parent-directory (`..`)
component is skipped entirely by `_unpack` — it contributes no filesystem
action, and unpacking continues with the remaining entries — whether the
`..` is leading or interior; moreover every path `_unpack` ever touches
(directories created or files written) lies under the destination root. -/
theorem C1_unpack_skips_parent :
    (∀ (dst : List String) (e : UEntry) (rest : List UEntry),
      PComp.parentDir ∈ e.pathComps →
      _unpack dst (e :: rest) = _unpack dst rest)
    ∧ (∀ (dst : List String) (es : List UEntry) (a : FsAction),
      a ∈ _unpack dst es → a.path.take dst.length = dst) := by
  constructor
  · intro dst e rest h
    simp only [_unpack, buildDst_parent _ _ h]
  · exact unpack_in_root

/-- Witness for C1: the spec's two example paths, `../../etc/passwd`
(leading `..`) and `a/../b` (interior `..`), are both skipped. -/
theorem C1_unpack_skips_parent_witness :
    _unpack ["root"]
        [{ pathComps := [.parentDir, .parentDir, .normal "etc", .normal "passwd"] },
         { pathComps := [.normal "a", .parentDir, .normal "b"] }]
      = _unpack ["root"] [{ pathComps := [.normal "a", .parentDir, .normal "b"] }]
    ∧ _unpack ["root"] [{ pathComps := [.normal "a", .parentDir, .normal "b"] }]
      = _unpack ["root"] [] :=
  ⟨C1_unpack_skips_parent.1 ["root"] _ _ (by decide),
   C1_unpack_skips_parent.1 ["root"] _ _ (by decide)⟩

/-- C2: over a well-formed archive, the random-access traversal
(`entries`) and the fully-consuming streaming traversal (`entries_mut`,
each body read in full) yield identical entry sequences — the same
header blocks and sizes, hence the same (path, size) pairs for any path
decode — in the same order, with no error. -/
theorem C2_random_access_eq_streaming :
    ∀ (es : List RawEntry) (fuel : Nat),
    (∀ e ∈ es, validEntry e = true) → es.length < fuel →
    runR fuel ⟨archBytes es, 0⟩ ⟨false, 0⟩
      = runM (fun f => f.size) fuel ⟨archBytes es, 0⟩ ⟨false, 0⟩
    ∧ runR fuel ⟨archBytes es, 0⟩ ⟨false, 0⟩ = (es.map fieldsOf, none) := by
  intro es fuel hv hf
  have h1 : runR fuel ⟨[] ++ archBytes es, 0⟩ ⟨false, ([] : List Nat).length⟩
      = (es.map fieldsOf, none) := runR_spec es [] 0 fuel hv hf
  have h2 : runM (fun f => f.size) fuel ⟨[] ++ archBytes es, 0⟩
      ⟨false, ([] : List Nat).length⟩ = (es.map fieldsOf, none) :=
    runM_spec (fun f => f.size) es [] 0 fuel hv (by omega) hf
  exact ⟨h1.trans h2.symm, h1⟩

/-- Witness for C2: a one-entry archive (valid size-0 header `H0`). -/
theorem C2_random_access_eq_streaming_witness :
    runR 2 ⟨archBytes [{ header := H0, body := [] }], 0⟩ ⟨false, 0⟩
      = runM (fun f => f.size) 2 ⟨archBytes [{ header := H0, body := [] }], 0⟩
          ⟨false, 0⟩ :=
  (C2_random_access_eq_streaming [{ header := H0, body := [] }] 2
    (by decide) (by simp)).1

/-- C4: an all-zero record followed by a second all-zero record ends the
traversal cleanly with no entry and no error (an archive of exactly two
zero records yields zero entries); an all-zero record followed by a
non-zero record is a header-corruption error. -/
theorem C4_zero_block_sentinel_or_corrupt :
    (∀ (req : EntryFields → Nat) (fuel : Nat),
      runR (fuel + 1) ⟨List.replicate 1024 0, 0⟩ ⟨false, 0⟩ = ([], none)
      ∧ runM req (fuel + 1) ⟨List.replicate 1024 0, 0⟩ ⟨false, 0⟩ = ([], none))
    ∧ (∀ (c : Cursor) (off : Nat) (tail : List Nat),
        c.data.drop c.pos = List.replicate 1024 0 ++ tail →
        _next_entry c off
          = (.ok none, { c with pos := c.pos + 512 + 512 }, off + 512 + 512))
    ∧ (∀ (c : Cursor) (off : Nat) (tail : List Nat),
        c.data.drop c.pos = List.replicate 512 0 ++ tail →
        512 ≤ tail.length → (tail.take 512).all (fun i => i = 0) = false →
        (_next_entry c off).1
          = .error "found block of 0s not followed by a second block of 0s") := by
  refine ⟨fun req fuel => ⟨?_, ?_⟩, next_entry_end, ?_⟩
  · exact runR_spec [] [] 0 (fuel + 1) (by simp) (by simp)
  · exact runM_spec req [] [] 0 (fuel + 1) (by simp) (by omega) (by simp)
  · intro c off tail hd h1 h2
    rw [next_entry_corrupt c off tail hd h1 h2]

/-- Witness for C4: the two-zero-record archive yields zero entries under
both cursors, and a zero record followed by a non-zero record is the
corruption error. -/
theorem C4_zero_block_sentinel_or_corrupt_witness :
    runR 1 ⟨List.replicate 1024 0, 0⟩ ⟨false, 0⟩ = ([], none)
    ∧ runM (fun _ => 0) 1 ⟨List.replicate 1024 0, 0⟩ ⟨false, 0⟩ = ([], none)
    ∧ (_next_entry ⟨List.replicate 512 0 ++ 1 :: List.replicate 511 0, 0⟩ 0).1
        = .error "found block of 0s not followed by a second block of 0s" :=
  ⟨(C4_zero_block_sentinel_or_corrupt.1 (fun _ => 0) 0).1,
   (C4_zero_block_sentinel_or_corrupt.1 (fun _ => 0) 0).2,
   C4_zero_block_sentinel_or_corrupt.2.2 ⟨List.replicate 512 0 ++ 1 :: List.replicate 511 0, 0⟩
     0 (1 :: List.replicate 511 0) (by rfl) (by decide) (by decide)⟩

/-- C7: the streaming cursor discards exactly `delta` bytes by repeated
reads into the fixed scratch buffer (position advances by exactly
`delta`); a read returning 0 bytes before `delta` is exhausted is an
unexpected-EOF error; and an archive whose consumer reads only 1 byte of
each entry's body still yields every entry, the remainders being
discarded. -/
theorem C7_skip_discards_exactly :
    (∀ (c : Cursor) (amt : Nat), c.pos + amt ≤ c.data.length →
      _skip c amt = (.ok (), { c with pos := c.pos + amt }))
    ∧ (∀ (c : Cursor) (amt : Nat), 0 < amt → c.data.length < c.pos + amt →
      (_skip c amt).1 = .error "unexpected EOF during skip")
    ∧ (∀ (es : List RawEntry) (fuel : Nat),
      (∀ e ∈ es, validEntry e = true) → es.length < fuel →
      runM (fun _ => 1) fuel ⟨archBytes es, 0⟩ ⟨false, 0⟩
        = (es.map fieldsOf, none)) := by
  refine ⟨_skip_ok, _skip_eof, fun es fuel hv hf => ?_⟩
  exact runM_spec (fun _ => 1) es [] 0 fuel hv (by omega) hf

/-- Witness for C7: a skip inside the data, a skip past the end, and a
one-entry archive (size 1, padded body) traversed reading 1 byte. -/
theorem C7_skip_discards_exactly_witness :
    _skip ⟨List.replicate 4 0, 1⟩ 2 = (.ok (), ⟨List.replicate 4 0, 3⟩)
    ∧ (_skip ⟨[], 0⟩ 1).1 = .error "unexpected EOF during skip"
    ∧ runM (fun _ => 1) 2
        ⟨archBytes [{ header := H1, body := 7 :: List.replicate 511 0 }], 0⟩
        ⟨false, 0⟩
      = ([fieldsOf { header := H1, body := 7 :: List.replicate 511 0 }], none) :=
  ⟨C7_skip_discards_exactly.1 ⟨List.replicate 4 0, 1⟩ 2 (by decide),
   C7_skip_discards_exactly.2.1 ⟨[], 0⟩ 1 (by decide) (by decide),
   C7_skip_discards_exactly.2.2 [{ header := H1, body := 7 :: List.replicate 511 0 }]
     2 (by decide) (by simp)⟩

/-- C9: `_seek` to the current position issues no underlying seek call
and leaves the position unchanged; otherwise exactly one absolute
underlying seek is issued and the position becomes the target, any
underlying failure being propagated. -/
theorem C9_seek_noop_or_absolute :
    ∀ (useek : Nat → Except String Unit) (c : Cursor) (target : Nat),
    (c.pos = target → _seek useek c target = (.ok c, false))
    ∧ (c.pos ≠ target → ∀ u, useek target = .ok u →
        _seek useek c target = (.ok { c with pos := target }, true))
    ∧ (c.pos ≠ target → ∀ e, useek target = .error e →
        _seek useek c target = (.error e, true)) := by
  intro useek c target
  refine ⟨fun h => ?_, fun h u hu => ?_, fun h e he => ?_⟩
  · simp [_seek, h]
  · simp [_seek, h, hu]
  · simp [_seek, h, he]

/-- Witness for C9: the no-op case, the successful absolute seek, and a
failing underlying seek. -/
theorem C9_seek_noop_or_absolute_witness :
    _seek listSeek ⟨[], 5⟩ 5 = (.ok ⟨[], 5⟩, false)
    ∧ _seek listSeek ⟨[], 0⟩ 5 = (.ok ⟨[], 5⟩, true)
    ∧ _seek (fun _ => .error "seek failed") ⟨[], 0⟩ 5
        = (.error "seek failed", true) :=
  ⟨(C9_seek_noop_or_absolute listSeek ⟨[], 5⟩ 5).1 rfl,
   (C9_seek_noop_or_absolute listSeek ⟨[], 0⟩ 5).2.1 (by decide) () rfl,
   (C9_seek_noop_or_absolute (fun _ => .error "seek failed") ⟨[], 0⟩ 5).2.2
     (by decide) "seek failed" rfl⟩

/-- C10: the recomputed verification sum of any 512-byte block is at
least 256 (the blanked checksum field alone contributes 32 · 8), the
all-zero block's stored checksum field does not even decode, and a
traversal positioned at an all-zero block never yields an entry — so
treating the first all-zero block as the start of the end sentinel never
misclassifies a valid entry. -/
theorem C10_zero_block_never_verifies :
    (∀ chunk : List Nat, chunk.length = 512 → 256 ≤ chunkSum chunk)
    ∧ header_cksum (List.replicate 512 0) = .error "numeric field was not a number"
    ∧ (∀ (c : Cursor) (off : Nat) (tail : List Nat) (f : EntryFields),
        c.data.drop c.pos = List.replicate 512 0 ++ tail →
        (_next_entry c off).1 ≠ .ok (some f)) := by
  refine ⟨?_, by rfl, next_entry_zero_no_entry⟩
  intro chunk _
  rw [chunkSum_eq]
  omega

/-- Witness for C10: instantiated at the all-zero block itself. -/
theorem C10_zero_block_never_verifies_witness :
    256 ≤ chunkSum (List.replicate 512 0)
    ∧ (_next_entry ⟨List.replicate 1024 0, 0⟩ 0).1
        ≠ .ok (some { size := 0, header := List.replicate 512 0 }) :=
  ⟨C10_zero_block_never_verifies.1 (List.replicate 512 0) (by rfl),
   C10_zero_block_never_verifies.2.2 ⟨List.replicate 1024 0, 0⟩ 0
     (List.replicate 512 0) { size := 0, header := List.replicate 512 0 } (by rfl)⟩

/-- C3: for a non-zero 512-byte header block whose fields decode, the
recomputed verification sum is `sum(bytes[0..148)) + sum(bytes[156..512))
+ 256`, and when the stored checksum differs from it the entry's decode
fails with the checksum-mismatch error and the traversal halts (the
random-access step yields the error with `done` set). -/
theorem C3_checksum_mismatch_halts :
    ∀ (data : List Nat) (off p stored s : Nat),
    off + 512 ≤ data.length →
    ((data.drop off).take 512).all (fun i => i = 0) = false →
    header_size ((data.drop off).take 512) = .ok s →
    header_cksum ((data.drop off).take 512) = .ok stored →
    stored ≠ (((data.drop off).take 512).take 148).sum
      + (((data.drop off).take 512).drop 156).sum + 256 →
    _next_entry ⟨data, off⟩ off
      = (.error "archive header checksum mismatch", ⟨data, off + 512⟩, off + 512)
    ∧ rNext ⟨data, p⟩ ⟨false, off⟩
      = (some (.error "archive header checksum mismatch"), ⟨data, off + 512⟩,
         ⟨true, off + 512⟩) := by
  intro data off p stored s hav hnz hs hk hne
  have hra := read_all_ok ⟨data, off⟩ hav
  have hcs : chunkSum ((data.drop off).take 512) ≠ stored := by
    rw [chunkSum_eq]; omega
  have h1 : _next_entry ⟨data, off⟩ off
      = (.error "archive header checksum mismatch", ⟨data, off + 512⟩, off + 512) := by
    simp only [_next_entry, hra, hnz, Bool.false_eq_true, if_false, hs, hk]
    rw [if_pos hcs]
  refine ⟨h1, ?_⟩
  have hstep := rNext_step ⟨data, p⟩ ⟨false, off⟩ rfl
  rw [hstep, h1]

/-- Witness for C3: `H0` with its checksum field altered to octal 1421
(785) while the true sum is 784; the decode fails with the checksum
mismatch and the random-access step halts. -/
theorem C3_checksum_mismatch_halts_witness :
    _next_entry ⟨mkHeader (List.replicate 11 48) [49, 52, 50, 49], 0⟩ 0
      = (.error "archive header checksum mismatch",
         ⟨mkHeader (List.replicate 11 48) [49, 52, 50, 49], 512⟩, 512)
    ∧ rNext ⟨mkHeader (List.replicate 11 48) [49, 52, 50, 49], 0⟩ ⟨false, 0⟩
      = (some (.error "archive header checksum mismatch"),
         ⟨mkHeader (List.replicate 11 48) [49, 52, 50, 49], 512⟩, ⟨true, 512⟩) :=
  C3_checksum_mismatch_halts (mkHeader (List.replicate 11 48) [49, 52, 50, 49])
    0 0 785 0 (by decide) (by decide) (by rfl) (by rfl) (by decide)

/-- C6: whenever `_next_entry` successfully yields an entry, the offset
of the next header is the current offset plus 512 plus
`ceil(size / 512) * 512` — the bit-masked rounding in the code agrees
with the arithmetic rounding for every decodable size. -/
theorem C6_next_offset_advance :
    ∀ (c : Cursor) (off : Nat) (f : EntryFields) (c1 : Cursor) (off1 : Nat),
    _next_entry c off = (.ok (some f), c1, off1) →
    off1 = off + 512 + ((f.size + 511) / 512) * 512 := by
  intro c off f c1 off1 h
  unfold _next_entry at h
  split at h
  · simp at h
  · split at h
    · split at h
      · simp at h
      · split at h
        · simp at h
        · simp at h
    · split at h
      · simp at h
      · split at h
        · simp at h
        · split at h
          · simp at h
          · rename_i x2 chunk c2 hra hz x1 s hs x0 k hk hcs
            simp only [Prod.mk.injEq, Except.ok.injEq, Option.some.injEq] at h
            obtain ⟨hfe, -, ho⟩ := h
            have hfs : f.size = s := by rw [← hfe]
            rw [← ho, hfs, roundBody_eq s (header_size_lt chunk s hs)]

/-- Witness for C6: entries of declared sizes 0, 1, 511, 512 and 513 all
place the next header at the correctly rounded offset. -/
theorem C6_next_offset_advance_witness :
    (_next_entry ⟨H0, 0⟩ 0).2.2 = 0 + 512 + ((0 + 511) / 512) * 512
    ∧ (_next_entry ⟨H1, 0⟩ 0).2.2 = 0 + 512 + ((1 + 511) / 512) * 512
    ∧ (_next_entry ⟨H511, 0⟩ 0).2.2 = 0 + 512 + ((511 + 511) / 512) * 512
    ∧ (_next_entry ⟨H512, 0⟩ 0).2.2 = 0 + 512 + ((512 + 511) / 512) * 512
    ∧ (_next_entry ⟨H513, 0⟩ 0).2.2 = 0 + 512 + ((513 + 511) / 512) * 512 :=
  ⟨C6_next_offset_advance ⟨H0, 0⟩ 0 { size := 0, header := H0 } ⟨H0, 512⟩ _ (by rfl),
   C6_next_offset_advance ⟨H1, 0⟩ 0 { size := 1, header := H1 } ⟨H1, 512⟩ _ (by rfl),
   C6_next_offset_advance ⟨H511, 0⟩ 0 { size := 511, header := H511 } ⟨H511, 512⟩ _ (by rfl),
   C6_next_offset_advance ⟨H512, 0⟩ 0 { size := 512, header := H512 } ⟨H512, 512⟩ _ (by rfl),
   C6_next_offset_advance ⟨H513, 0⟩ 0 { size := 513, header := H513 } ⟨H513, 512⟩ _ (by rfl)⟩

/-- C8: once a cursor is `done` — and every error and every end sentinel
sets `done` — its step function yields nothing and leaves everything
unchanged, so no entry and no further error is ever produced after the
first failure or sentinel, for both the random-access and the streaming
iterator. -/
theorem C8_terminal_after_failure :
    (∀ (c : Cursor) (st : REntries), st.done = true → rNext c st = (none, c, st))
    ∧ (∀ (c : Cursor) (st : MEntries), st.done = true → mNext c st = (none, c, st))
    ∧ (∀ (c : Cursor) (st : REntries) (e : String) (c1 : Cursor) (st1 : REntries),
        rNext c st = (some (.error e), c1, st1) → st1.done = true)
    ∧ (∀ (c : Cursor) (st : MEntries) (e : String) (c1 : Cursor) (st1 : MEntries),
        mNext c st = (some (.error e), c1, st1) → st1.done = true)
    ∧ (∀ (c : Cursor) (st : REntries) (c1 : Cursor) (st1 : REntries),
        rNext c st = (none, c1, st1) → st1.done = true)
    ∧ (∀ (c : Cursor) (st : MEntries) (c1 : Cursor) (st1 : MEntries),
        mNext c st = (none, c1, st1) → st1.done = true) := by
  refine ⟨?_, ?_, ?_, ?_, ?_, ?_⟩
  · intro c st h; simp [rNext, h]
  · intro c st h; simp [mNext, h]
  · intro c st e c1 st1 h
    by_cases hd : st.done = true
    · simp [rNext, hd] at h
    · rw [rNext_step c st (by simpa using hd)] at h
      rcases hne : _next_entry { c with pos := st.offset } st.offset with ⟨r, c2, o⟩
      rcases r with e' | f
      · simp only [hne, Prod.mk.injEq] at h
        rw [← h.2.2]
      · rcases f with - | f <;> simp [hne] at h
  · intro c st e c1 st1 h
    by_cases hd : st.done = true
    · simp [mNext, hd] at h
    · rw [mNext_step' c st (by simpa using hd)] at h
      rcases hsk : _skip c (st.next - c.pos) with ⟨rs, cs⟩
      rcases rs with es | u
      · simp only [hsk, Prod.mk.injEq] at h
        rw [← h.2.2]
      · rcases hne : _next_entry cs st.next with ⟨r, c2, o⟩
        rcases r with e' | f
        · simp only [hsk, hne, Prod.mk.injEq] at h
          rw [← h.2.2]
        · rcases f with - | f <;> simp [hsk, hne] at h
  · intro c st c1 st1 h
    by_cases hd : st.done = true
    · simp only [rNext, hd, if_true, Prod.mk.injEq] at h
      rw [← h.2.2, hd]
    · rw [rNext_step c st (by simpa using hd)] at h
      rcases hne : _next_entry { c with pos := st.offset } st.offset with ⟨r, c2, o⟩
      rcases r with e' | f
      · simp [hne] at h
      · rcases f with - | f
        · simp only [hne, Prod.mk.injEq] at h
          rw [← h.2.2]
        · simp [hne] at h
  · intro c st c1 st1 h
    by_cases hd : st.done = true
    · simp only [mNext, hd, if_true, Prod.mk.injEq] at h
      rw [← h.2.2, hd]
    · rw [mNext_step' c st (by simpa using hd)] at h
      rcases hsk : _skip c (st.next - c.pos) with ⟨rs, cs⟩
      rcases rs with es | u
      · simp [hsk] at h
      · rcases hne : _next_entry cs st.next with ⟨r, c2, o⟩
        rcases r with e' | f
        · simp [hsk, hne] at h
        · rcases f with - | f
          · simp only [hsk, hne, Prod.mk.injEq] at h
            rw [← h.2.2]
          · simp [hsk, hne] at h

/-- Witness for C8: a finished cursor of either kind steps to nothing and
stays unchanged. -/
theorem C8_terminal_after_failure_witness :
    rNext ⟨[], 0⟩ ⟨true, 0⟩ = (none, ⟨[], 0⟩, ⟨true, 0⟩)
    ∧ mNext ⟨[], 0⟩ ⟨true, 0⟩ = (none, ⟨[], 0⟩, ⟨true, 0⟩) :=
  ⟨C8_terminal_after_failure.1 ⟨[], 0⟩ ⟨true, 0⟩ rfl,
   C8_terminal_after_failure.2.1 ⟨[], 0⟩ ⟨true, 0⟩ rfl⟩

/-- `valid_parts` restated on the record's fields. -/
theorem valid_parts_mk (hh bb : List Nat)
    (hv : validEntry { header := hh, body := bb } = true) :
    hh.length = 512 ∧ hh.all (fun i => i = 0) = false ∧
    header_size hh = .ok (entrySize { header := hh, body := bb }) ∧
    header_cksum hh = .ok (chunkSum hh) ∧
    bb.length = roundBody (entrySize { header := hh, body := bb }) :=
  valid_parts ⟨hh, bb⟩ hv

/-- C5 (amended): replacing one byte of a valid header at any index
outside the checksum field makes the decode of the modified block fail
before any data is yielded; the error is the checksum mismatch whenever
the size field still decodes (a flip that corrupts the size field's
octal encoding instead surfaces as the size field's decode error,
because the size is decoded before the checksum comparison). -/
theorem C5_flip_outside_checksum_fails :
    ∀ (hdr bdy : List Nat) (i v : Nat),
    validEntry { header := hdr, body := bdy } = true →
    i < 512 → (i < 148 ∨ 156 ≤ i) → v < 256 → v ≠ hdr.getD i 0 →
    ∃ msg, (_next_entry ⟨hdr.set i v, 0⟩ 0).1 = .error msg
      ∧ (∀ s, header_size (hdr.set i v) = .ok s →
          msg = "archive header checksum mismatch") := by
  intro hdr bdy i v hv hi hout _hv256 hne
  obtain ⟨hlen, -, hs, hk, -⟩ := valid_parts_mk hdr bdy hv
  have hib : i < hdr.length := by omega
  have hfield : ((hdr.set i v).drop 148).take 8 = (hdr.drop 148).take 8 := by
    rcases hout with hlt | hge
    · rw [List.drop_set, if_pos (by omega)]
    · rw [List.drop_set, if_neg (by omega), List.set_take,
        List.set_eq_of_length_le
          (by simp only [List.length_take, List.length_drop]; omega)]
  have hk0 : octalFrom ((hdr.drop 148).take 8) = .ok (chunkSum hdr) := hk
  have hck' : header_cksum (hdr.set i v) = .ok (chunkSum hdr) := by
    unfold header_cksum
    rw [hfield]
    exact hk0
  obtain ⟨d, hdmem, hd48⟩ := octalFrom_has_digit _ _ hk0
  have hdmem' : d ∈ hdr.set i v := by
    have hmem2 : d ∈ ((hdr.set i v).drop 148).take 8 := by rw [hfield]; exact hdmem
    exact List.mem_of_mem_drop (List.mem_of_mem_take hmem2)
  have hnz' : (hdr.set i v).all (fun x => x = 0) = false := by
    cases hall : (hdr.set i v).all (fun x => x = 0) with
    | false => rfl
    | true =>
      have hd0 := List.all_eq_true.1 hall d hdmem'
      simp at hd0
      omega
  have hlen' : (hdr.set i v).length = 512 := by rw [List.length_set, hlen]
  have hav : (0 : Nat) + 512 ≤ (hdr.set i v).length := by omega
  have hra := read_all_ok ⟨hdr.set i v, 0⟩ hav
  have hchunk : ((hdr.set i v).drop 0).take 512 = hdr.set i v := by
    rw [List.drop_zero]
    exact List.take_of_length_le (by omega)
  have hsum : chunkSum (hdr.set i v) + hdr[i] = chunkSum hdr + v := by
    rcases hout with hlt | hge
    · have ht : (hdr.set i v).take 148 = (hdr.take 148).set i v := List.set_take
      have hd156 : (hdr.set i v).drop 156 = hdr.drop 156 := by
        rw [List.drop_set, if_pos (by omega)]
      have hlt' : i < (hdr.take 148).length := by
        simp only [List.length_take]; omega
      have hss := sum_set_add (hdr.take 148) i v hlt'
      have hgt : (hdr.take 148)[i] = hdr[i] := List.getElem_take _
      rw [chunkSum_eq, chunkSum_eq, ht, hd156]
      omega
    · obtain ⟨j, rfl⟩ : ∃ j, i = 156 + j := ⟨i - 156, by omega⟩
      have ht : (hdr.set (156 + j) v).take 148 = hdr.take 148 := by
        rw [List.set_take,
          List.set_eq_of_length_le (by simp only [List.length_take]; omega)]
      have hj : j < (hdr.drop 156).length := by
        simp only [List.length_drop]; omega
      have hdp : (hdr.set (156 + j) v).drop 156 = (hdr.drop 156).set j v := by
        rw [List.drop_set, if_neg (by omega)]
        congr 1
        omega
      have hss := sum_set_add (hdr.drop 156) j v hj
      have hgd : (hdr.drop 156)[j] = hdr[156 + j] := List.getElem_drop _
      rw [chunkSum_eq, chunkSum_eq, ht, hdp]
      omega
  have hgd0 : hdr.getD i 0 = hdr[i] := List.getD_eq_getElem hdr 0 hib
  have hcs : chunkSum (hdr.set i v) ≠ chunkSum hdr := by
    intro heq
    rw [heq] at hsum
    apply hne
    rw [hgd0]
    omega
  rcases hs' : header_size (hdr.set i v) with e' | s'
  · refine ⟨e', ?_, ?_⟩
    · simp only [_next_entry, hra, hchunk, hnz', Bool.false_eq_true, if_false, hs']
    · intro s hss
      exact absurd hss (by simp)
  · refine ⟨"archive header checksum mismatch", ?_, fun s hss => rfl⟩
    simp only [_next_entry, hra, hchunk, hnz', Bool.false_eq_true, if_false, hs', hck']
    rw [if_pos hcs]

/-- C5 counterexample: the claim as stated is false.  `H0` is a valid
header; flipping byte 124 — inside the size field, outside the checksum
field — to `'x'` (120) makes the decode fail with the size field's
decode error, not with the checksum mismatch the claim requires. -/
theorem C5_flip_counterexample :
    validEntry { header := H0, body := [] } = true
    ∧ 124 < 512 ∧ ¬(148 ≤ 124 ∧ 124 < 156) ∧ (120 : Nat) < 256
    ∧ (120 : Nat) ≠ H0.getD 124 0
    ∧ (_next_entry ⟨H0.set 124 120, 0⟩ 0).1 = .error "numeric field was not a number"
    ∧ (_next_entry ⟨H0.set 124 120, 0⟩ 0).1
        ≠ .error "archive header checksum mismatch" := by
  refine ⟨by decide, by decide, by decide, by decide, by decide, by rfl, ?_⟩
  intro hcontra
  have h1 : (_next_entry ⟨H0.set 124 120, 0⟩ 0).1
      = .error "numeric field was not a number" := by rfl
  rw [h1] at hcontra
  simp at hcontra

/-- Witness for C5 (amended): a flip in the name field (index 0) of `H0`
fails, and — since the size field still decodes — with the checksum
mismatch. -/
theorem C5_flip_outside_checksum_fails_witness :
    ∃ msg, (_next_entry ⟨H0.set 0 1, 0⟩ 0).1 = .error msg
      ∧ (∀ s, header_size (H0.set 0 1) = .ok s →
          msg = "archive header checksum mismatch") :=
  C5_flip_outside_checksum_fails H0 [] 0 1 (by decide) (by decide) (by decide)
    (by decide) (by decide)

end TarRs
